import Mathlib

/-!
Verification of the FRANC APRS-over-AFSK signal-generation pipeline.

Shallow embedding of the signal-generation pipeline of the
franc-master-control repository.  The orchestration code is translated from
`src/src/aprs.cpp` and the main driver (`run_aprs`).  The DSP/framing core
(`src/ax25.cpp`, `src/dsp.cpp`) is referenced by the build but absent from
the source tree; those definitions are modelled from the specification and
are marked `Modelled from the spec:` in their doc comments.

Machine integers are modelled as `Nat`/`Int` with explicit masking where the
code relies on width; `float` samples are modelled as elements of a linear
ordered field (`Rat` for executable witnesses, `Real` inside the pipeline
where the code computes transcendental functions).
-/

set_option maxHeartbeats 1000000
set_option maxRecDepth 1000000

namespace Franc

/-! ## Bytes and bits -/

/-- The 8 bits of a byte, least significant first.  AX.25 serializes every
frame byte LSB first (spec section 3, bit order invariant). -/
def byteBitsLSB (b : Nat) : List Bool :=
  (List.range 8).map (fun i => b.testBit i)

/-- Byte values of an ASCII string. -/
def strBytes (s : String) : List Nat :=
  s.toList.map Char.toNat

/-! ## FCS: ITU-T CRC-16

Modelled from the spec: the FCS computation lives in `src/ax25.cpp`, which is
missing from the tree.  Spec section 3: polynomial 0x1021, init 0xFFFF,
reflected input, reflected output, final XOR 0xFFFF; the reflected
realization shifts right and XORs with 0x8408 (0x1021 bit-reversed). -/

/-- Modelled from the spec: one bit step of the reflected CRC-16.  The data
bit is XORed into the low bit; if the low bit is set the register is shifted
right and XORed with the reflected polynomial 0x8408, otherwise only
shifted. -/
def crcBit (crc : Nat) (bit : Bool) : Nat :=
  let x := crc ^^^ (if bit then 1 else 0)
  if x &&& 1 = 1 then (x >>> 1) ^^^ 0x8408 else x >>> 1

/-- Modelled from the spec: fold the 8 bits of one byte, LSB first, into the
CRC register. -/
def crcByte (crc b : Nat) : Nat :=
  (byteBitsLSB b).foldl crcBit crc

/-- Modelled from the spec: CRC-16 register after processing a byte list,
initial value 0xFFFF, before the final complement. -/
def crc16 (bs : List Nat) : Nat :=
  bs.foldl crcByte 0xFFFF

/-- Modelled from the spec: the transmitted FCS value, i.e. the CRC register
with the final XOR 0xFFFF (complement) applied. -/
def fcsOf (bs : List Nat) : Nat :=
  crc16 bs ^^^ 0xFFFF

/-! ## AX.25 frame builder

Modelled from the spec: `ax25frame` lives in the missing `src/ax25.cpp`.
Spec sections 3 and 4.1: address field, control 0x03, PID 0xF0, info bytes,
FCS low byte first. -/

/-- Split a character list at every occurrence of a separator character. -/
def splitOnChar (c : Char) : List Char → List (List Char)
  | [] => [[]]
  | a :: t =>
    match splitOnChar c t with
    | [] => if a = c then [[], []] else [[a]]
    | g :: gs => if a = c then [] :: g :: gs else (a :: g) :: gs

/-- Decimal value of a digit list (used for the SSID suffix of an address). -/
def natOfDigits (l : List Char) : Nat :=
  l.foldl (fun n ch => n * 10 + (ch.toNat - 48)) 0

/-- Modelled from the spec: parse one address entry of the form CALL or
CALL-SSID (spec section 4.1). -/
def parseEntry (s : String) : List Char × Nat :=
  match splitOnChar '-' s.toList with
  | [] => ([], 0)
  | [c] => (c, 0)
  | c :: ss :: _ => (c, natOfDigits ss)

/-- Modelled from the spec: parse the digipeater path, a comma separated
list of CALL-SSID entries; an empty string is an empty path. -/
def parsePath (p : String) : List (List Char × Nat) :=
  if p = "" then [] else (splitOnChar ',' p.toList).map (fun e => parseEntry (String.mk e))

/-- A callsign space-padded to exactly 6 characters (spec section 3). -/
def padCall (cs : List Char) : List Nat :=
  (cs.map Char.toNat).take 6 ++ List.replicate (6 - cs.length) 32

/-- Modelled from the spec: the 7 bytes of one encoded address.  Each of the
6 callsign characters is shifted left one bit; the 7th byte holds the SSID in
bits 1-4, 0b11 in bits 5-6, bit 7 clear, and bit 0 set iff this is the last
address of the field (spec section 3, address encoding). -/
def addrBytes (call : List Char) (ssid : Nat) (last : Bool) : List Nat :=
  (padCall call).map (fun c => (c * 2) % 256) ++
    [0x60 ||| ((ssid % 16) <<< 1) ||| (if last then 1 else 0)]

/-- Encoded digipeater addresses; the final entry carries the last-address
bit (spec section 4.1, contract). -/
def digiBytes : List (List Char × Nat) → List Nat
  | [] => []
  | [e] => addrBytes e.1 e.2 true
  | e :: e2 :: es => addrBytes e.1 e.2 false ++ digiBytes (e2 :: es)

/-- Modelled from the spec: the frame bytes covered by the FCS, i.e.
dest, src, digis, control 0x03, PID 0xF0 and the information bytes
(spec section 4.1, FCS computation). -/
def preFcs (src dest path info : String) : List Nat :=
  let d := parseEntry dest
  let s := parseEntry src
  let digis := parsePath path
  addrBytes d.1 d.2 false ++ addrBytes s.1 s.2 (digis = []) ++ digiBytes digis ++
    [0x03, 0xF0] ++ strBytes info

/-- Modelled from the spec: the complete AX.25 UI frame byte vector,
information field followed by the complemented FCS, low byte first
(spec section 3, frame bytes). -/
def frameBytes (src dest path info : String) : List Nat :=
  let pre := preFcs src dest path info
  pre ++ [fcsOf pre % 256, fcsOf pre / 256 % 256]

/-! ## Bit serializer and stuffer

Modelled from the spec: the serializer lives in the missing `src/ax25.cpp`.
Spec section 4.2: emit the frame bytes LSB first, insert a 0 after every run
of five consecutive 1 bits counted across byte boundaries, and surround the
stuffed data with one unstuffed opening and one unstuffed closing flag 0x7E
(the reference emits exactly one opening flag, spec section 9). -/

/-- Modelled from the spec: bit stuffing automaton.  The counter holds the
number of consecutive 1 bits seen; after the fifth 1 a 0 is inserted and the
counter resets, and any 0 resets it (spec section 4.2, step 2). -/
def stuffAux : Nat → List Bool → List Bool
  | _, [] => []
  | _, false :: bs => false :: stuffAux 0 bs
  | c, true :: bs =>
    if c = 4 then true :: false :: stuffAux 0 bs
    else true :: stuffAux (c + 1) bs

/-- Bit stuffing of a bit sequence, starting with an empty run. -/
def stuff (bs : List Bool) : List Bool := stuffAux 0 bs

/-- The flag byte 0x7E as bits, LSB first: 0 1 1 1 1 1 1 0. -/
def flagBits : List Bool := byteBitsLSB 0x7E

/-- The logical bits of the frame body, every byte LSB first, unstuffed. -/
def frameBits (src dest path info : String) : List Bool :=
  (frameBytes src dest path info).flatMap byteBitsLSB

/-- Modelled from the spec: the serialized bit stream of one frame: one
unstuffed opening flag, the stuffed frame bits, one unstuffed closing flag.
This is the value the missing `ax25frame` returns to `aprs.cpp`. -/
def ax25frame (src dest path info : String) : List Bool :=
  flagBits ++ stuff (frameBits src dest path info) ++ flagBits

/-! ## NRZI encoder

Modelled from the spec: `nrzi` lives in the missing `src/ax25.cpp`.
Spec sections 3 and 4.3: one bit of state, initial level 1; a 0 bit toggles
the level, a 1 bit holds it; the emitted symbol is the new level. -/

/-- Modelled from the spec: NRZI encoding with explicit current level. -/
def nrziAux (level : Bool) : List Bool → List Bool
  | [] => []
  | b :: bs =>
    let l1 := if b then level else !level
    l1 :: nrziAux l1 bs

/-- NRZI encoding of a bit stream with initial level 1. -/
def nrzi (bs : List Bool) : List Bool := nrziAux true bs

/-! ## AFSK synthesizer

Modelled from the spec: `afsk` lives in the missing `src/dsp.cpp`.
Spec section 4.4: Bell-202, mark 1200 Hz, space 2200 Hz, 48000/1200 = 40
samples per bit, continuous phase accumulator kept within one cycle,
emitted sample sin(2 pi phase). -/

/-- Modelled from the spec: tone frequency of one NRZI symbol in cycles per
sample (symbol 1 selects the 1200 Hz mark, symbol 0 the 2200 Hz space; the
polarity is the open question of spec section 9 and no claim depends on
it). -/
def toneCycles (b : Bool) : Rat :=
  (if b then 1200 else 2200) / 48000

/-- Fractional part of a rational phase, keeping it within one cycle
(spec section 4.4, edge cases). -/
def fract1 (q : Rat) : Rat := q - ⌊q⌋

/-- Modelled from the spec: the 40 phase-accumulator values of one symbol
interval, advancing the phase by the tone frequency per sample. -/
def afskSamples : Nat → Rat → Rat → List Rat × Rat
  | 0, _, th => ([], th)
  | n + 1, step, th =>
    let th1 := fract1 (th + step)
    let r := afskSamples n step th1
    (th1 :: r.1, r.2)

/-- Modelled from the spec: phase values of the whole waveform, 40 per input
bit, phase carried continuously from symbol to symbol. -/
def afskGo : List Bool → Rat → List Rat
  | [], _ => []
  | b :: bs, th =>
    let s := afskSamples 40 (toneCycles b) th
    s.1 ++ afskGo bs s.2

/-- Phase values (in cycles) of the AFSK waveform for a bit stream. -/
def afskPhases (bits : List Bool) : List Rat := afskGo bits 0

/-- Modelled from the spec: the AFSK audio waveform, one sin sample per
phase value (spec section 4.4, per sample emit sin(phase)). -/
noncomputable def afsk (bits : List Bool) : List Real :=
  (afskPhases bits).map (fun th => Real.sin (2 * Real.pi * Rat.cast th))

/-! ## Sample sink: IQ_S8 quantization

Translated from `src/src/aprs.cpp` lines 15-24 (`f32_to_s8`): each component
is multiplied by SCHAR_MAX = 127 and converted to `int8_t`, I byte first,
then Q byte.  The C++ float-to-integer conversion truncates toward zero; a
truncated value outside `int8_t` range is undefined behaviour, which the
compilers targeted by this code realize as twos-complement wraparound of
the truncated integer (the wraparound artifact named by the spec). -/

/-- Truncation toward zero of a field element, the rounding used by the C++
float-to-integer conversion. -/
def truncZ {α : Type*} [LinearOrderedField α] [FloorRing α] (x : α) : Int :=
  if 0 ≤ x then ⌊x⌋ else ⌈x⌉

/-- The `int8_t` value produced by `(int8_t)(x * SCHAR_MAX)`: multiply by
127, truncate toward zero, reduce twos-complement into [-128, 127]. -/
def s8cast {α : Type*} [LinearOrderedField α] [FloorRing α] (x : α) : Int :=
  Int.bmod (truncZ (x * 127)) 256

/-- Translated from `f32_to_s8` (aprs.cpp lines 15-24): interleaved signed
bytes, I component then Q component for every complex sample. -/
def f32_to_s8 {α : Type*} [LinearOrderedField α] [FloorRing α]
    (input : List (α × α)) : List Int :=
  input.flatMap (fun z => [s8cast z.1, s8cast z.2])

/-- The conversion the spec claims for one component: multiply by 127, round
toward zero, clamp to [-128, 127].  Stated from the words of spec section
4.7 for comparison with the code. -/
def s8spec {α : Type*} [LinearOrderedField α] [FloorRing α] (x : α) : Int :=
  max (-128) (min 127 (truncZ (x * 127)))

/-- The sink behaviour the spec claims: clamped components, interleaved. -/
def f32_to_s8_spec {α : Type*} [LinearOrderedField α] [FloorRing α]
    (input : List (α × α)) : List Int :=
  input.flatMap (fun z => [s8spec z.1, s8spec z.2])

/-! ## FM modulator

The phase bookkeeping is translated from `src/src/aprs.cpp` lines 28-47
(`modulate`); the per-sample law is modelled from the spec because `fmmod`
lives in the missing `src/dsp.cpp`.  Spec section 4.5: sensitivity
k = 2 pi Df / Fs_a, phase psi[n] = psi[n-1] + k x[n], emitted sample
(cos psi[n], sin psi[n]). -/

/-- Audio sample rate in Hz.  Modelled from the spec: the constant
AUDIO_SAMPLE_RATE is defined in the missing `src/dsp.h`; spec sections 4.4
and 4.5 fix it at 48000. -/
def AUDIO_SAMPLE_RATE : Nat := 48000

/-- Peak FM deviation in Hz, `max_deviation` in aprs.cpp line 30. -/
def max_deviation : Nat := 5000

/-- The FM sensitivity computed in aprs.cpp line 31:
2 pi times max_deviation over AUDIO_SAMPLE_RATE. -/
noncomputable def sensitivity : Real :=
  2 * Real.pi * (max_deviation : Real) / (AUDIO_SAMPLE_RATE : Real)

/-- Modelled from the spec: the FM phase accumulator after integrating a
batch of audio samples from a starting phase (spec section 4.5). -/
def fmmodPhase (k ph : Real) (xs : List Real) : Real :=
  xs.foldl (fun p x => p + k * x) ph

/-- Modelled from the spec: the successive phase values psi[n] of one batch,
one per input sample. -/
def fmmodPhaseList (k : Real) : Real → List Real → List Real
  | _, [] => []
  | ph, x :: xs => (ph + k * x) :: fmmodPhaseList k (ph + k * x) xs

/-- Modelled from the spec: the complex baseband batch emitted by `fmmod`,
(cos psi[n], sin psi[n]) for each input sample. -/
noncomputable def fmmodIQ (k ph : Real) (xs : List Real) : List (Real × Real) :=
  (fmmodPhaseList k ph xs).map (fun ps => (Real.cos ps, Real.sin ps))

/-! ## FIR interpolator (x50)

Modelled from the spec: `FIRInterpolator` lives in the missing
`src/dsp.cpp`.  Spec section 4.6: polyphase structure with L = 50
sub-filters; the delay line is internal state carried across calls; a call
consumes its input samples and emits exactly L output samples per consumed
input once warmup is complete (the delay line is zero-primed, so warmup is
immediate); the count consumed is returned to the caller.  The tap values
come from `lowpass()` in the missing `src/dsp.cpp`; the development is
parameterized by the tap vector and every theorem holds for all taps. -/

/-- Length of one polyphase sub-filter for a tap vector. -/
def subLen (taps : List Real) : Nat := (taps.length + 49) / 50

/-- Modelled from the spec: polyphase decomposition of the tap vector into
50 sub-filters; sub-filter j takes every 50th tap starting at j. -/
def polyphase (taps : List Real) : List (List Real) :=
  (List.range 50).map (fun j =>
    (List.range (subLen taps)).map (fun i => taps.getD (i * 50 + j) 0))

/-- Dot product of a real sub-filter with a complex delay line, componentwise
on I and Q; missing history entries act as the zero priming. -/
def dotRI (s : List Real) (h : List (Real × Real)) : Real × Real :=
  ((List.zipWith (fun t p => t * p.1) s h).sum,
   (List.zipWith (fun t p => t * p.2) s h).sum)

/-- Modelled from the spec: run the interpolator over a batch of input
samples from a given delay line.  Each input sample enters the delay line
and all 50 sub-filters emit one output sample; returns the concatenated
outputs and the final delay line.  Every input sample is consumed. -/
def interpRun (subs : List (List Real)) (m : Nat) :
    List (Real × Real) → List (Real × Real) → List (Real × Real) × List (Real × Real)
  | st, [] => ([], st)
  | st, x :: xs =>
    let h1 := (x :: st).take m
    let rest := interpRun subs m h1 xs
    (subs.map (fun s => dotRI s h1) ++ rest.1, rest.2)

/-! ## Streaming orchestration of FM + interpolation

Translated from `src/src/aprs.cpp` lines 28-66 (`modulate`): the audio
waveform is processed in chunks of BUFSIZE samples; `fmmod` appends complex
samples to a ring buffer carrying the phase accumulator across chunks
(`last_phase`, initialized to 0 at line 41); the interpolator consumes the
ring buffer, the consumed samples are removed, and the chunk output is
written to the sink, as int8 pairs in IQ_S8 mode or as raw complex floats
otherwise; if the interpolator consumes nothing the loop breaks. -/

/-- The streaming chunk size.  Modelled from the spec: BUFSIZE is defined in
the missing `src/dsp.h`; spec section 4.8 names fixed-size chunks of 4096
samples. -/
def BUFSIZE : Nat := 4096

/-- The waveform cut into successive chunks of BUFSIZE samples, the order
the `modulate` loop visits them. -/
def chunks : List Real → List (List Real)
  | [] => []
  | x :: t => ((x :: t).take BUFSIZE) :: chunks ((x :: t).drop BUFSIZE)
termination_by l => l.length
decreasing_by
  simp only [List.length_drop, List.length_cons, BUFSIZE]
  omega

/-- One trace entry per executed loop iteration of `modulate`: the phase at
entry to the chunk, the phase after the chunk, and the interpolator output
written for the chunk. -/
noncomputable def modGo (subs : List (List Real)) (m : Nat) (k : Real) :
    List (List Real) → List (Real × Real) → List (Real × Real) → Real →
      List (Real × Real × List (Real × Real))
  | [], _, _, _ => []
  | c :: cs, ring, hist, ph =>
    let fm := fmmodIQ k ph c
    let ph1 := fmmodPhase k ph c
    let ring1 := ring ++ fm
    let pr := interpRun subs m hist ring1
    if ring1.length = 0 then []
    else (ph, ph1, pr.1) :: modGo subs m k cs (ring1.drop ring1.length) pr.2 ph1

/-- The loop trace of `modulate` on a waveform: chunked input, empty initial
ring buffer and delay line, initial phase 0, sensitivity as computed at
aprs.cpp line 31. -/
noncomputable def modTrace (taps : List Real) (w : List Real) :
    List (Real × Real × List (Real × Real)) :=
  modGo (polyphase taps) (subLen taps) sensitivity (chunks w) [] [] 0

/-- The complex sample stream `modulate` hands the sink across the whole
frame (the IQ_F32 branch writes exactly these samples). -/
noncomputable def modulateSamples (taps : List Real) (w : List Real) :
    List (Real × Real) :=
  ((modTrace taps w).map (fun t => t.2.2)).flatten

/-- The int8 byte stream `modulate` writes in IQ_S8 mode: each chunk output
converted by `f32_to_s8` and written in loop order (aprs.cpp lines 55-59). -/
noncomputable def modulateS8 (taps : List Real) (w : List Real) : List Int :=
  ((modTrace taps w).map (fun t => f32_to_s8 t.2.2)).flatten

/-! ## The C entry point gen_iq_s8

Translated from `src/src/aprs.cpp` lines 70-91: destination fixed to APRS,
the user path copied with `strncpy(path, user_path, 63)`, the frame built,
NRZI encoded and synthesized to audio; `*total` is set to
`wave.size() * 50 * 2` before allocation; on allocation failure a null
pointer is returned with `*total` already written; otherwise `modulate`
fills the buffer through `fmemopen` and the buffer is returned.  Allocation
success is a parameter of the model. -/

/-- The effect of `strncpy(path, user_path, 63)`: at most 63 characters of
the user path are used. -/
def strncpy63 (p : String) : String := String.mk (p.toList.take 63)

/-- The audio waveform gen_iq_s8 synthesizes (aprs.cpp lines 76-78). -/
noncomputable def gen_wave (callsign path info : String) : List Real :=
  afsk (nrzi (ax25frame callsign "APRS" (strncpy63 path) info))

/-- Translated from `gen_iq_s8` (aprs.cpp lines 70-91): returns the output
buffer (none when malloc fails) and the value stored in `*total`. -/
noncomputable def gen_iq_s8 (allocOk : Bool) (taps : List Real)
    (callsign path info : String) : Option (List Int) × Nat :=
  let total := (gen_wave callsign path info).length * 50 * 2
  if allocOk then (some (modulateS8 taps (gen_wave callsign path info)), total)
  else (none, total)

/-! ## The run_aprs driver

Translated from the unnamed main driver source (`run_aprs`, part_000 lines
103-159): an empty callsign falls back to the hard-coded default KD9WPR and
an empty info string to a default message; the frame is built and
synthesized; with format PCM_F32 the float audio is written directly
(4 bytes per sample), otherwise `modulate` runs (IQ_S8: 2 bytes per complex
sample, IQ_F32: 8 bytes per complex sample); the only failure path is the
output file failing to open. -/

/-- The output sample format selector of aprs.h. -/
inductive OutputFormat
  | IQ_S8
  | IQ_F32
  | PCM_F32
deriving DecidableEq

/-- The configuration handed to run_aprs (config.h). -/
structure Config where
  callsign : String
  dest : String
  path : String
  output : String
  info : String
  iq_sf : OutputFormat
  debug : Bool

/-- The callsign run_aprs uses: the hard-coded default KD9WPR when the
configured callsign is empty (part_000 line 107). -/
def callsignUsed (c : Config) : String :=
  if c.callsign = "" then "KD9WPR" else c.callsign

/-- The info string run_aprs uses: a default message when empty
(part_000 line 108). -/
def infoUsed (c : Config) : String :=
  if c.info = "" then "Hello from APRS default message" else c.info

/-- The audio waveform run_aprs synthesizes (part_000 lines 121-127). -/
noncomputable def run_aprs_wave (c : Config) : List Real :=
  afsk (nrzi (ax25frame (callsignUsed c) c.dest c.path (infoUsed c)))

/-- What run_aprs writes to the sink. -/
inductive Written
  | pcm (samples : List Real)
  | iq8 (bytes : List Int)
  | iqf (samples : List (Real × Real))

/-- The data run_aprs writes for a configuration (part_000 lines 141-149):
PCM_F32 bypasses FM and interpolation and writes the audio itself. -/
noncomputable def run_aprs_written (taps : List Real) (c : Config) : Written :=
  match c.iq_sf with
  | OutputFormat.PCM_F32 => Written.pcm (run_aprs_wave c)
  | OutputFormat.IQ_S8 => Written.iq8 (modulateS8 taps (run_aprs_wave c))
  | OutputFormat.IQ_F32 => Written.iqf (modulateSamples taps (run_aprs_wave c))

/-- The number of bytes run_aprs writes: 4 per float sample, 1 per int8,
8 per complex float sample. -/
noncomputable def run_aprs_bytes (taps : List Real) (c : Config) : Nat :=
  match run_aprs_written taps c with
  | Written.pcm s => 4 * s.length
  | Written.iq8 b => b.length
  | Written.iqf s => 8 * s.length

/-- The return value of run_aprs: 1 only when a named output file fails to
open, 0 otherwise (part_000 lines 130-139 and 158). -/
def run_aprs_ret (openOk : Bool) (c : Config) : Nat :=
  if c.output = "" then 0 else if openOk then 0 else 1

/-! ## Helper lemmas: lengths and concatenation -/

/-- A byte serializes to 8 bits. -/
theorem byteBitsLSB_length (b : Nat) : (byteBitsLSB b).length = 8 := by
  simp [byteBitsLSB]

/-- NRZI preserves the stream length whatever the current level. -/
theorem nrziAux_length (bs : List Bool) : ∀ level, (nrziAux level bs).length = bs.length := by
  induction bs with
  | nil => intro level; rfl
  | cons b t ih => intro level; simp [nrziAux, ih]

/-- NRZI preserves the stream length (spec section 4.3). -/
theorem nrzi_length (bs : List Bool) : (nrzi bs).length = bs.length :=
  nrziAux_length bs true

/-- One symbol interval yields exactly its sample budget of phase values. -/
theorem afskSamples_fst_length (n : Nat) : ∀ step th, ((afskSamples n step th).1).length = n := by
  induction n with
  | zero => intro step th; rfl
  | succ k ih => intro step th; simp [afskSamples, ih]

/-- The AFSK phase stream has 40 values per input bit. -/
theorem afskGo_length (bs : List Bool) : ∀ th, (afskGo bs th).length = 40 * bs.length := by
  induction bs with
  | nil => intro th; simp [afskGo]
  | cons b t ih =>
    intro th
    simp [afskGo, afskSamples_fst_length, ih]
    ring

/-- The AFSK waveform has 40 audio samples per input bit (spec section
4.4). -/
theorem afsk_length (bs : List Bool) : (afsk bs).length = 40 * bs.length := by
  unfold afsk afskPhases
  rw [List.length_map]
  exact afskGo_length bs 0

/-- A serialized frame always holds its two flag bytes, 16 bits. -/
theorem ax25frame_length_ge (src dest path info : String) :
    16 ≤ (ax25frame src dest path info).length := by
  simp [ax25frame, flagBits, byteBitsLSB_length]
  omega

/-- The quantizer emits two bytes per complex sample. -/
theorem f32_to_s8_length {α : Type*} [LinearOrderedField α] [FloorRing α]
    (l : List (α × α)) : (f32_to_s8 l).length = 2 * l.length := by
  induction l with
  | nil => rfl
  | cons z t ih => simp [f32_to_s8, List.flatMap_cons] at ih ⊢; omega

/-- The quantizer distributes over concatenation. -/
theorem f32_to_s8_append {α : Type*} [LinearOrderedField α] [FloorRing α]
    (a b : List (α × α)) : f32_to_s8 (a ++ b) = f32_to_s8 a ++ f32_to_s8 b := by
  simp [f32_to_s8, List.flatMap_append]

/-- Quantizing a concatenation of batches equals concatenating the
quantized batches. -/
theorem f32_to_s8_flatten {α : Type*} [LinearOrderedField α] [FloorRing α]
    (ls : List (List (α × α))) :
    f32_to_s8 ls.flatten = (ls.map f32_to_s8).flatten := by
  induction ls with
  | nil => rfl
  | cons l t ih => simp [List.flatten_cons, f32_to_s8_append, ih]

/-! ## Helper lemmas: FM phase threading -/

/-- Folding the accumulator over a concatenation threads the intermediate
phase. -/
theorem fmmodPhase_append (k ph : Real) (a b : List Real) :
    fmmodPhase k ph (a ++ b) = fmmodPhase k (fmmodPhase k ph a) b := by
  simp [fmmodPhase, List.foldl_append]

/-- The per-sample phase list of a concatenation splits at the threaded
phase. -/
theorem fmmodPhaseList_append (k : Real) (a : List Real) :
    ∀ ph (b : List Real),
      fmmodPhaseList k ph (a ++ b)
        = fmmodPhaseList k ph a ++ fmmodPhaseList k (fmmodPhase k ph a) b := by
  induction a with
  | nil => intro ph b; simp [fmmodPhaseList, fmmodPhase]
  | cons x t ih =>
    intro ph b
    simp [fmmodPhaseList, ih, fmmodPhase] at ih ⊢

/-- One phase value per audio sample. -/
theorem fmmodPhaseList_length (k : Real) (xs : List Real) :
    ∀ ph, (fmmodPhaseList k ph xs).length = xs.length := by
  induction xs with
  | nil => intro ph; rfl
  | cons x t ih => intro ph; simp [fmmodPhaseList, ih]

/-- The FM batch output splits over concatenation at the threaded phase. -/
theorem fmmodIQ_append (k ph : Real) (a b : List Real) :
    fmmodIQ k ph (a ++ b) = fmmodIQ k ph a ++ fmmodIQ k (fmmodPhase k ph a) b := by
  simp [fmmodIQ, fmmodPhaseList_append]

/-- One complex baseband sample per audio sample (spec section 4.5). -/
theorem fmmodIQ_length (k ph : Real) (xs : List Real) :
    (fmmodIQ k ph xs).length = xs.length := by
  simp [fmmodIQ, fmmodPhaseList_length]

/-! ## Helper lemmas: interpolator streaming -/

/-- The interpolator over a concatenated batch emits the concatenation of
the two batch outputs, threading the delay line. -/
theorem interpRun_append (subs : List (List Real)) (m : Nat) (a : List (Real × Real)) :
    ∀ st (b : List (Real × Real)),
      interpRun subs m st (a ++ b)
        = ((interpRun subs m st a).1 ++ (interpRun subs m (interpRun subs m st a).2 b).1,
           (interpRun subs m (interpRun subs m st a).2 b).2) := by
  induction a with
  | nil => intro st b; simp [interpRun]
  | cons x t ih => intro st b; simp [interpRun, ih]

/-- The interpolator emits one output sample per sub-filter per consumed
input sample (spec section 4.6). -/
theorem interpRun_fst_length (subs : List (List Real)) (m : Nat) (l : List (Real × Real)) :
    ∀ st, ((interpRun subs m st l).1).length = subs.length * l.length := by
  induction l with
  | nil => intro st; simp [interpRun]
  | cons x t ih =>
    intro st
    simp [interpRun, ih]
    ring

/-- There are exactly 50 polyphase sub-filters for every tap vector. -/
theorem polyphase_length (taps : List Real) : (polyphase taps).length = 50 := by
  simp [polyphase]

/-! ## Helper lemmas: chunking -/

/-- The chunks of the waveform concatenate back to the waveform: the
`modulate` loop visits every audio sample exactly once. -/
theorem chunks_flatten (l : List Real) : (chunks l).flatten = l := by
  induction l using chunks.induct with
  | case1 => rw [chunks.eq_1]; rfl
  | case2 x t ih => rw [chunks.eq_2, List.flatten_cons, ih, List.take_append_drop]

/-- No chunk is empty, so the interpolator consumes a positive count in
every loop iteration and the break at aprs.cpp line 50 never fires. -/
theorem chunks_ne_nil (l : List Real) : ∀ c ∈ chunks l, c ≠ [] := by
  induction l using chunks.induct with
  | case1 => rw [chunks.eq_1]; intro c hc; cases hc
  | case2 x t ih =>
    rw [chunks.eq_2]
    intro c hc
    rcases List.mem_cons.mp hc with h | h
    · subst h
      have : BUFSIZE = 4095 + 1 := rfl
      rw [this, List.take_succ_cons]
      exact List.cons_ne_nil x _
    · exact ih c h

/-- The first j chunks concatenate to the first j * BUFSIZE samples. -/
theorem chunks_take_flatten (l : List Real) :
    ∀ j, ((chunks l).take j).flatten = l.take (j * BUFSIZE) := by
  induction l using chunks.induct with
  | case1 => intro j; rw [chunks.eq_1]; simp
  | case2 x t ih =>
    intro j
    cases j with
    | zero => simp
    | succ j0 =>
      rw [chunks.eq_2, List.take_succ_cons, List.flatten_cons, ih j0,
        show (j0 + 1) * BUFSIZE = BUFSIZE + j0 * BUFSIZE by ring, List.take_add]

/-! ## Helper lemmas: the modulate loop -/

/-- The loop trace is empty once the chunk list is exhausted. -/
theorem modGo_nil (subs : List (List Real)) (m : Nat) (k : Real)
    (ring hist : List (Real × Real)) (ph : Real) :
    modGo subs m k [] ring hist ph = [] := rfl

/-- One executed iteration of the `modulate` loop: the chunk is FM
modulated from the carried phase, the ring content is interpolated and
fully consumed, and the loop continues with an empty ring, the new delay
line and the new phase. -/
theorem modGo_cons (subs : List (List Real)) (m : Nat) (k : Real)
    (c : List Real) (cs : List (List Real)) (ring hist : List (Real × Real)) (ph : Real)
    (h : (ring ++ fmmodIQ k ph c).length ≠ 0) :
    modGo subs m k (c :: cs) ring hist ph
      = (ph, fmmodPhase k ph c, (interpRun subs m hist (ring ++ fmmodIQ k ph c)).1)
        :: modGo subs m k cs [] (interpRun subs m hist (ring ++ fmmodIQ k ph c)).2
            (fmmodPhase k ph c) := by
  simp only [modGo]
  rw [if_neg h, List.drop_length]

/-- The sample stream of the loop is the one-shot interpolation of the
one-shot FM modulation of the concatenated chunks: the chunked computation
drops nothing and reorders nothing. -/
theorem modGo_samples (subs : List (List Real)) (m : Nat) (k : Real) :
    ∀ (cs : List (List Real)) (hist : List (Real × Real)) (ph : Real),
      (∀ c ∈ cs, c ≠ []) →
      ((modGo subs m k cs [] hist ph).map (fun t => t.2.2)).flatten
        = (interpRun subs m hist (fmmodIQ k ph cs.flatten)).1 := by
  intro cs
  induction cs with
  | nil =>
    intro hist ph h
    simp [modGo_nil, fmmodIQ, fmmodPhaseList, interpRun]
  | cons c cs ih =>
    intro hist ph h
    have hc : c ≠ [] := h c (List.mem_cons_self c cs)
    have hlen : (([] : List (Real × Real)) ++ fmmodIQ k ph c).length ≠ 0 := by
      rw [List.nil_append, fmmodIQ_length]
      exact fun h0 => hc (List.length_eq_zero.mp h0)
    rw [modGo_cons subs m k c cs [] hist ph hlen, List.nil_append]
    rw [List.map_cons, List.flatten_cons]
    rw [ih (interpRun subs m hist (fmmodIQ k ph c)).2 (fmmodPhase k ph c)
      (fun d hd => h d (List.mem_cons_of_mem c hd))]
    rw [List.flatten_cons, fmmodIQ_append, interpRun_append]

/-- The entry phases of the loop trace are the accumulator values at the
chunk boundaries: the phase is carried, never reset, across chunks. -/
theorem modGo_map_entry_phase (subs : List (List Real)) (m : Nat) (k : Real) :
    ∀ (cs : List (List Real)) (hist : List (Real × Real)) (ph : Real),
      (∀ c ∈ cs, c ≠ []) →
      (modGo subs m k cs [] hist ph).map (fun t => t.1)
        = (List.range cs.length).map (fun j => fmmodPhase k ph ((cs.take j).flatten)) := by
  intro cs
  induction cs with
  | nil => intro hist ph h; rfl
  | cons c cs ih =>
    intro hist ph h
    have hc : c ≠ [] := h c (List.mem_cons_self c cs)
    have hlen : (([] : List (Real × Real)) ++ fmmodIQ k ph c).length ≠ 0 := by
      rw [List.nil_append, fmmodIQ_length]
      exact fun h0 => hc (List.length_eq_zero.mp h0)
    rw [modGo_cons subs m k c cs [] hist ph hlen, List.map_cons]
    rw [ih (interpRun subs m hist ([] ++ fmmodIQ k ph c)).2 (fmmodPhase k ph c)
      (fun d hd => h d (List.mem_cons_of_mem c hd))]
    rw [List.length_cons, List.range_succ_eq_map, List.map_cons, List.map_map]
    have h0 : fmmodPhase k ph ((List.take 0 (c :: cs)).flatten) = ph := rfl
    rw [h0]
    have hfun :
        ((fun j => fmmodPhase k ph (((c :: cs).take j).flatten)) ∘ Nat.succ)
          = fun j => fmmodPhase k (fmmodPhase k ph c) ((cs.take j).flatten) := by
      funext j
      simp only [Function.comp_apply, Nat.succ_eq_add_one, List.take_succ_cons,
        List.flatten_cons, fmmodPhase_append]
    rw [hfun]

/-- The exit phases of the loop trace are the accumulator values after each
chunk, i.e. the entry phase of the next chunk. -/
theorem modGo_map_exit_phase (subs : List (List Real)) (m : Nat) (k : Real) :
    ∀ (cs : List (List Real)) (hist : List (Real × Real)) (ph : Real),
      (∀ c ∈ cs, c ≠ []) →
      (modGo subs m k cs [] hist ph).map (fun t => t.2.1)
        = (List.range cs.length).map (fun j => fmmodPhase k ph ((cs.take (j + 1)).flatten)) := by
  intro cs
  induction cs with
  | nil => intro hist ph h; rfl
  | cons c cs ih =>
    intro hist ph h
    have hc : c ≠ [] := h c (List.mem_cons_self c cs)
    have hlen : (([] : List (Real × Real)) ++ fmmodIQ k ph c).length ≠ 0 := by
      rw [List.nil_append, fmmodIQ_length]
      exact fun h0 => hc (List.length_eq_zero.mp h0)
    rw [modGo_cons subs m k c cs [] hist ph hlen, List.map_cons]
    rw [ih (interpRun subs m hist ([] ++ fmmodIQ k ph c)).2 (fmmodPhase k ph c)
      (fun d hd => h d (List.mem_cons_of_mem c hd))]
    rw [List.length_cons, List.range_succ_eq_map, List.map_cons, List.map_map]
    have h0 : fmmodPhase k ph ((List.take (0 + 1) (c :: cs)).flatten) = fmmodPhase k ph c := by
      simp [List.take_succ_cons, fmmodPhase]
    rw [h0]
    have hfun :
        ((fun j => fmmodPhase k ph (((c :: cs).take (j + 1)).flatten)) ∘ Nat.succ)
          = fun j => fmmodPhase k (fmmodPhase k ph c) ((cs.take (j + 1)).flatten) := by
      funext j
      simp only [Function.comp_apply, Nat.succ_eq_add_one, List.take_succ_cons,
        List.flatten_cons, fmmodPhase_append]
    rw [hfun]

/-- The full sample stream `modulate` writes equals the one-shot pipeline
over the whole waveform. -/
theorem modulateSamples_eq (taps w : List Real) :
    modulateSamples taps w
      = (interpRun (polyphase taps) (subLen taps) [] (fmmodIQ sensitivity 0 w)).1 := by
  unfold modulateSamples modTrace
  rw [modGo_samples (polyphase taps) (subLen taps) sensitivity (chunks w) [] 0
    (chunks_ne_nil w), chunks_flatten]

/-- The IQ_S8 byte stream is the quantization of the one-shot pipeline
output. -/
theorem modulateS8_eq (taps w : List Real) :
    modulateS8 taps w
      = f32_to_s8 ((interpRun (polyphase taps) (subLen taps) [] (fmmodIQ sensitivity 0 w)).1) := by
  unfold modulateS8
  have h1 : ((modTrace taps w).map (fun t => f32_to_s8 t.2.2)).flatten
      = f32_to_s8 (((modTrace taps w).map (fun t => t.2.2)).flatten) := by
    rw [f32_to_s8_flatten, List.map_map]
    rfl
  rw [h1]
  exact congrArg f32_to_s8 (modulateSamples_eq taps w)

/-- `modulate` emits 50 complex samples per audio sample. -/
theorem modulateSamples_length (taps w : List Real) :
    (modulateSamples taps w).length = 50 * w.length := by
  rw [modulateSamples_eq, interpRun_fst_length, fmmodIQ_length, polyphase_length]

/-- `modulate` in IQ_S8 mode emits 100 bytes per audio sample. -/
theorem modulateS8_length (taps w : List Real) :
    (modulateS8 taps w).length = 100 * w.length := by
  rw [modulateS8_eq, f32_to_s8_length, interpRun_fst_length, fmmodIQ_length,
    polyphase_length]
  ring

/-- C2: in IQ_S8 and IQ_F32 modes the stream handed to the sink is the
unique concatenation, in frame order, of the per-chunk interpolator
outputs, and it equals the one-shot FM-plus-interpolation of the entire
AFSK waveform, 50 complex samples (100 int8 bytes) per audio sample: the
chunked loop of `modulate` covers every audio sample and drops no tail.
The chunk outputs are concatenated in loop order by definition of
`modulateSamples` and `modulateS8`; this theorem identifies that
concatenation with the unchunked pipeline, which is the ordering guarantee
of spec section 5 together with the no-lost-tail clause of section 4.8. -/
theorem modulate_stream_is_concat (taps w : List Real) :
    modulateSamples taps w
      = (interpRun (polyphase taps) (subLen taps) [] (fmmodIQ sensitivity 0 w)).1
  ∧ modulateS8 taps w
      = f32_to_s8 ((interpRun (polyphase taps) (subLen taps) [] (fmmodIQ sensitivity 0 w)).1)
  ∧ (modulateSamples taps w).length = 50 * w.length
  ∧ (modulateS8 taps w).length = 100 * w.length :=
  ⟨modulateSamples_eq taps w, modulateS8_eq taps w,
    modulateSamples_length taps w, modulateS8_length taps w⟩

/-- C4: the FM phase accumulator of `modulate` starts at 0 for the frame
and is carried across streaming buffer boundaries: the entry phase of chunk
j and the exit phase of chunk j-1 are both the accumulator value of the
unchunked waveform prefix of j * BUFSIZE samples (so the exit phase of each
chunk is the entry phase of the next, and the entry phase of chunk 0 is the
fold over the empty prefix, 0), and the per-sample increment uses the
sensitivity 2 pi 5000 / 48000. -/
theorem modulate_phase_continuity (taps w : List Real) :
    (modTrace taps w).map (fun t => t.1)
      = (List.range (chunks w).length).map
          (fun j => fmmodPhase sensitivity 0 (w.take (j * BUFSIZE)))
  ∧ (modTrace taps w).map (fun t => t.2.1)
      = (List.range (chunks w).length).map
          (fun j => fmmodPhase sensitivity 0 (w.take ((j + 1) * BUFSIZE)))
  ∧ sensitivity = 2 * Real.pi * 5000 / 48000 := by
  refine ⟨?_, ?_, ?_⟩
  · unfold modTrace
    rw [modGo_map_entry_phase (polyphase taps) (subLen taps) sensitivity (chunks w) [] 0
      (chunks_ne_nil w)]
    congr 1
    funext j
    rw [chunks_take_flatten]
  · unfold modTrace
    rw [modGo_map_exit_phase (polyphase taps) (subLen taps) sensitivity (chunks w) [] 0
      (chunks_ne_nil w)]
    congr 1
    funext j
    rw [chunks_take_flatten]
  · unfold sensitivity max_deviation AUDIO_SAMPLE_RATE
    norm_num

/-- C3: `gen_iq_s8` stores `wave.size() * 50 * 2` in `*total`, the
pipeline produces exactly 50 complex samples and 100 int8 bytes per audio
sample, and a 272-bit frame gives 10880 audio samples, 544000 complex
samples and 1088000 bytes. -/
theorem gen_iq_s8_sample_counts (taps : List Real) (allocOk : Bool) (cs p i : String) :
    (gen_iq_s8 allocOk taps cs p i).2 = (gen_wave cs p i).length * 50 * 2
  ∧ (modulateSamples taps (gen_wave cs p i)).length = (gen_wave cs p i).length * 50
  ∧ (modulateS8 taps (gen_wave cs p i)).length = (gen_wave cs p i).length * 100
  ∧ (∀ bs : List Bool, bs.length = 272 →
      (afsk bs).length = 10880
      ∧ (modulateSamples taps (afsk bs)).length = 544000
      ∧ (modulateS8 taps (afsk bs)).length = 1088000) := by
  refine ⟨?_, ?_, ?_, ?_⟩
  · unfold gen_iq_s8
    cases allocOk <;> rfl
  · rw [modulateSamples_length]
    ring
  · rw [modulateS8_length]
    ring
  · intro bs hbs
    refine ⟨?_, ?_, ?_⟩
    · rw [afsk_length, hbs]
    · rw [modulateSamples_length, afsk_length, hbs]
    · rw [modulateS8_length, afsk_length, hbs]

/-- Witness for C3 at a concrete 272-bit stream: the hypothesis of the
scenario clause is discharged at `List.replicate 272 false`. -/
theorem gen_iq_s8_sample_counts_witness :
    (List.replicate 272 false).length = 272
  ∧ (afsk (List.replicate 272 false)).length = 10880
  ∧ (modulateS8 [] (afsk (List.replicate 272 false))).length = 1088000 :=
  ⟨by rw [List.length_replicate],
   ((gen_iq_s8_sample_counts [] true "N0CALL" "" "Hi").2.2.2
      (List.replicate 272 false) (by rw [List.length_replicate])).1,
   ((gen_iq_s8_sample_counts [] true "N0CALL" "" "Hi").2.2.2
      (List.replicate 272 false) (by rw [List.length_replicate])).2.2⟩

/-- C10: on allocation failure `gen_iq_s8` returns a null buffer with
`*total` already set to the intended byte count; on success it returns the
modulated byte stream, whose length is exactly `*total`, so the buffer of
`*total` bytes is filled completely. -/
theorem gen_iq_s8_alloc_contract (taps : List Real) (cs p i : String) :
    (gen_iq_s8 false taps cs p i).1 = none
  ∧ (gen_iq_s8 false taps cs p i).2 = (gen_wave cs p i).length * 50 * 2
  ∧ (gen_iq_s8 true taps cs p i).1 = some (modulateS8 taps (gen_wave cs p i))
  ∧ (modulateS8 taps (gen_wave cs p i)).length = (gen_iq_s8 true taps cs p i).2 := by
  refine ⟨rfl, rfl, rfl, ?_⟩
  have h2 : (gen_iq_s8 true taps cs p i).2 = (gen_wave cs p i).length * 50 * 2 := rfl
  rw [h2, modulateS8_length]
  ring

/-- C9: the generation pipeline is a pure function of its arguments: two
invocations with identical callsign, path and info (and the same allocation
outcome and tap vector) produce identical output buffers and identical
`*total` values.  All state the source uses (the phase accumulator, the
ring buffer, the interpolator delay line) is local to one invocation of
`modulate` (aprs.cpp lines 39-41), so nothing persists across calls. -/
theorem gen_iq_s8_pure (taps : List Real) (a1 a2 : Bool) (c1 c2 p1 p2 i1 i2 : String)
    (ha : a1 = a2) (hc : c1 = c2) (hp : p1 = p2) (hi : i1 = i2) :
    gen_iq_s8 a1 taps c1 p1 i1 = gen_iq_s8 a2 taps c2 p2 i2 := by
  subst ha
  subst hc
  subst hp
  subst hi
  rfl

/-- Witness for C9: two runs on the same concrete arguments agree. -/
theorem gen_iq_s8_pure_witness :
    gen_iq_s8 true [] "KD9WPR" "WIDE1-1" "Test" = gen_iq_s8 true [] "KD9WPR" "WIDE1-1" "Test" :=
  gen_iq_s8_pure [] true true "KD9WPR" "KD9WPR" "WIDE1-1" "WIDE1-1" "Test" "Test"
    rfl rfl rfl rfl

/-! ## Helper lemmas: int8 quantization bounds -/

/-- Truncation toward zero of a product with 127 stays within plus or minus
127 for an input within plus or minus 1. -/
theorem truncZ_bounds {α : Type*} [LinearOrderedField α] [FloorRing α]
    (x : α) (h1 : -1 ≤ x) (h2 : x ≤ 1) :
    -127 ≤ truncZ (x * 127) ∧ truncZ (x * 127) ≤ 127 := by
  unfold truncZ
  split
  · constructor
    · have hx : (0 : α) ≤ x * 127 := by nlinarith
      have := Int.floor_nonneg.mpr hx
      omega
    · have hx : x * 127 ≤ (127 : α) := by nlinarith
      have hf : ((⌊x * 127⌋ : Int) : α) ≤ 127 := le_trans (Int.floor_le (x * 127)) hx
      exact_mod_cast hf
  · constructor
    · have hx : (-127 : α) ≤ x * 127 := by nlinarith
      have hf : (-127 : α) ≤ ((⌈x * 127⌉ : Int) : α) := le_trans hx (Int.le_ceil (x * 127))
      exact_mod_cast hf
    · have hx : x * 127 ≤ (0 : α) := by nlinarith
      have hc : ⌈x * 127⌉ ≤ (0 : Int) := Int.ceil_le.mpr (by exact_mod_cast hx)
      omega

/-- The balanced 256 remainder is the identity on int8 range. -/
theorem bmod_small (t : Int) (h1 : -128 ≤ t) (h2 : t ≤ 127) : Int.bmod t 256 = t := by
  simp only [Int.bmod]
  split
  · omega
  · omega

/-- Within unit amplitude the code conversion agrees with the spec clamp
formula and stays inside [-127, 127]. -/
theorem s8cast_eq_spec {α : Type*} [LinearOrderedField α] [FloorRing α]
    (x : α) (h1 : -1 ≤ x) (h2 : x ≤ 1) :
    s8cast x = s8spec x ∧ -127 ≤ s8cast x ∧ s8cast x ≤ 127 := by
  obtain ⟨hl, hu⟩ := truncZ_bounds x h1 h2
  have hb : Int.bmod (truncZ (x * 127)) 256 = truncZ (x * 127) :=
    bmod_small _ (by omega) (by omega)
  unfold s8cast s8spec
  rw [hb]
  refine ⟨?_, by omega, by omega⟩
  rw [min_eq_right (by omega), max_eq_right (by omega)]

/-- C1 (amended): for every complex sample whose components lie in
[-1, 1] - in particular for unit-amplitude input - the emitted pair of
signed bytes is each component multiplied by 127 and rounded toward zero,
which coincides with the clamp formula the spec states and lies in
[-127, 127]; no wraparound occurs.  (For components outside [-1, 1] the
code performs no clamping, see the counterexample.) -/
theorem f32_to_s8_in_range {α : Type*} [LinearOrderedField α] [FloorRing α]
    (input : List (α × α))
    (h : ∀ z ∈ input, (-1 ≤ z.1 ∧ z.1 ≤ 1) ∧ (-1 ≤ z.2 ∧ z.2 ≤ 1)) :
    f32_to_s8 input = f32_to_s8_spec input
  ∧ ∀ b ∈ f32_to_s8 input, -127 ≤ b ∧ b ≤ 127 := by
  induction input with
  | nil => exact ⟨rfl, fun b hb => absurd hb (List.not_mem_nil b)⟩
  | cons z t ih =>
    obtain ⟨⟨h11, h12⟩, h21, h22⟩ := h z (List.mem_cons_self z t)
    obtain ⟨ha, hb1, hb2⟩ := s8cast_eq_spec z.1 h11 h12
    obtain ⟨hc, hd1, hd2⟩ := s8cast_eq_spec z.2 h21 h22
    obtain ⟨ihe, ihb⟩ := ih (fun w hw => h w (List.mem_cons_of_mem z hw))
    constructor
    · simp only [f32_to_s8, f32_to_s8_spec, List.flatMap_cons] at ihe ⊢
      rw [ha, hc, ihe]
    · intro b hbm
      simp only [f32_to_s8, List.flatMap_cons, List.cons_append, List.nil_append,
        List.mem_cons] at hbm
      rcases hbm with hb | hb | hb
      · subst hb; exact ⟨hb1, hb2⟩
      · subst hb; exact ⟨hd1, hd2⟩
      · exact ihb b hb

/-- Witness for C1 at concrete in-range samples, including unit
amplitude. -/
theorem f32_to_s8_in_range_witness :
    f32_to_s8 [((1 : Rat), 1), (-1, 1 / 2)] = f32_to_s8_spec [((1 : Rat), 1), (-1, 1 / 2)]
  ∧ ∀ b ∈ f32_to_s8 [((1 : Rat), 1), (-1, 1 / 2)], -127 ≤ b ∧ b ≤ 127 :=
  f32_to_s8_in_range [((1 : Rat), 1), (-1, 1 / 2)] (by
    intro z hz
    simp only [List.mem_cons, List.not_mem_nil, or_false] at hz
    rcases hz with h | h <;> subst h <;> norm_num)

/-- Counterexample for C1 as stated: at the sample (3/2, 0) the code emits
the wrapped byte -66 where the claimed clamp formula gives 127: the
conversion does not clamp and a wraparound artifact appears for
out-of-range input. -/
theorem f32_to_s8_no_clamp_cex :
    f32_to_s8 [((3 : Rat) / 2, 0)] = [-66, 0]
  ∧ f32_to_s8_spec [((3 : Rat) / 2, 0)] = [127, 0]
  ∧ f32_to_s8 [((3 : Rat) / 2, 0)] ≠ f32_to_s8_spec [((3 : Rat) / 2, 0)] := by
  have hf : ⌊(3 : Rat) / 2 * 127⌋ = 190 := by
    rw [Int.floor_eq_iff]
    constructor <;> norm_num
  have h32 : truncZ ((3 : Rat) / 2 * 127) = 190 := by
    unfold truncZ
    rw [if_pos (by norm_num), hf]
  have ha : s8cast ((3 : Rat) / 2) = -66 := by
    unfold s8cast
    rw [h32]
    decide
  have hb : s8cast (0 : Rat) = 0 := by
    unfold s8cast truncZ
    norm_num
  have hc : s8spec ((3 : Rat) / 2) = 127 := by
    unfold s8spec
    rw [h32]
    decide
  have hd : s8spec (0 : Rat) = 0 := by
    unfold s8spec truncZ
    norm_num
  refine ⟨?_, ?_, ?_⟩
  · simp [f32_to_s8, List.flatMap_cons, ha, hb]
  · simp [f32_to_s8_spec, List.flatMap_cons, hc, hd]
  · simp [f32_to_s8, f32_to_s8_spec, List.flatMap_cons, ha, hb, hc, hd]

/-! ## Helper lemmas: run_aprs output sizes -/

/-- The audio waveform of a request has 40 samples per serialized frame
bit. -/
theorem run_aprs_wave_length (c : Config) :
    (run_aprs_wave c).length
      = 40 * (ax25frame (callsignUsed c) c.dest c.path (infoUsed c)).length := by
  unfold run_aprs_wave
  rw [afsk_length, nrzi_length]

/-- Every request writes a positive number of bytes in every format: the
serialized frame always contains at least its two flags. -/
theorem run_aprs_bytes_pos (taps : List Real) (c : Config) :
    0 < run_aprs_bytes taps c := by
  have hlen : 16 ≤ (ax25frame (callsignUsed c) c.dest c.path (infoUsed c)).length :=
    ax25frame_length_ge (callsignUsed c) c.dest c.path (infoUsed c)
  have hw : 0 < (run_aprs_wave c).length := by
    rw [run_aprs_wave_length]
    omega
  unfold run_aprs_bytes run_aprs_written
  rcases hsf : c.iq_sf
  · show 0 < (modulateS8 taps (run_aprs_wave c)).length
    rw [modulateS8_length]
    omega
  · show 0 < 8 * (modulateSamples taps (run_aprs_wave c)).length
    rw [modulateSamples_length]
    omega
  · show 0 < 4 * (run_aprs_wave c).length
    omega

/-- C5 (amended): a request with an empty source callsign is not rejected:
`run_aprs` substitutes the hard-coded default callsign KD9WPR, proceeds to
build the frame, and writes a nonempty output stream (provided the output
file opens). -/
theorem run_aprs_empty_callsign_default (taps : List Real) (openOk : Bool) (c : Config)
    (h : c.callsign = "") (ho : openOk = true) :
    callsignUsed c = "KD9WPR"
  ∧ run_aprs_ret openOk c = 0
  ∧ 0 < run_aprs_bytes taps c := by
  refine ⟨?_, ?_, run_aprs_bytes_pos taps c⟩
  · unfold callsignUsed
    rw [if_pos h]
  · subst ho
    unfold run_aprs_ret
    by_cases hout : c.output = "" <;> simp [hout]

/-- A concrete request with an empty callsign, PCM output. -/
def cfgEmptyCall : Config :=
  ⟨"", "APRS", "", "pkt.pcm", "hi", OutputFormat.PCM_F32, false⟩

/-- Counterexample for C5 as stated: the pipeline does not reject the empty
callsign request; it substitutes KD9WPR, returns success, and writes a
nonempty stream. -/
theorem run_aprs_empty_callsign_cex :
    cfgEmptyCall.callsign = ""
  ∧ callsignUsed cfgEmptyCall = "KD9WPR"
  ∧ run_aprs_ret true cfgEmptyCall = 0
  ∧ 0 < run_aprs_bytes [] cfgEmptyCall := by
  refine ⟨rfl, by decide, by decide, run_aprs_bytes_pos [] cfgEmptyCall⟩

/-- Witness for C5 (amended) at the concrete empty-callsign request. -/
theorem run_aprs_empty_callsign_default_witness :
    callsignUsed cfgEmptyCall = "KD9WPR"
  ∧ run_aprs_ret true cfgEmptyCall = 0
  ∧ 0 < run_aprs_bytes [] cfgEmptyCall :=
  run_aprs_empty_callsign_default [] true cfgEmptyCall rfl rfl

/-- C6: with format PCM_F32 the FM modulator and the interpolator are
bypassed: the sink receives the AFSK float audio itself, and the written
byte count is exactly num_bits * 40 * 4 where num_bits is the length of the
serialized frame bit stream. -/
theorem run_aprs_pcm_bypass (taps : List Real) (c : Config)
    (h : c.iq_sf = OutputFormat.PCM_F32) :
    run_aprs_written taps c
      = Written.pcm (afsk (nrzi (ax25frame (callsignUsed c) c.dest c.path (infoUsed c))))
  ∧ run_aprs_bytes taps c
      = (ax25frame (callsignUsed c) c.dest c.path (infoUsed c)).length * 40 * 4 := by
  have hw : run_aprs_written taps c = Written.pcm (run_aprs_wave c) := by
    unfold run_aprs_written
    rw [h]
  constructor
  · rw [hw]
    rfl
  · unfold run_aprs_bytes
    rw [hw]
    show 4 * (run_aprs_wave c).length = _
    rw [run_aprs_wave_length]
    ring

/-- A concrete smoke-frame request with PCM output. -/
def cfgPcm : Config :=
  ⟨"N0CALL", "APRS", "", "pkt.pcm", "Hello", OutputFormat.PCM_F32, false⟩

/-- Witness for C6 at the concrete smoke-frame request. -/
theorem run_aprs_pcm_bypass_witness :
    run_aprs_written [] cfgPcm
      = Written.pcm (afsk (nrzi (ax25frame (callsignUsed cfgPcm) cfgPcm.dest cfgPcm.path
          (infoUsed cfgPcm))))
  ∧ run_aprs_bytes [] cfgPcm
      = (ax25frame (callsignUsed cfgPcm) cfgPcm.dest cfgPcm.path (infoUsed cfgPcm)).length
          * 40 * 4 :=
  run_aprs_pcm_bypass [] cfgPcm rfl

/-- C7 (amended): the frame ends with the complemented CRC register, low
byte first; the ITU-T test vector gives register 0x6F91 before the final
complement, transmitted value 0x906E after it, emitted as bytes 0x6E then
0x90. -/
theorem ax25_fcs_contract (src dest path info : String) :
    frameBytes src dest path info
      = preFcs src dest path info
        ++ [fcsOf (preFcs src dest path info) % 256,
            fcsOf (preFcs src dest path info) / 256 % 256]
  ∧ fcsOf (strBytes "123456789") = 0x906E
  ∧ fcsOf (strBytes "123456789") % 256 = 0x6E
  ∧ fcsOf (strBytes "123456789") / 256 % 256 = 0x90
  ∧ crc16 (strBytes "123456789") = 0x6F91 := by
  refine ⟨rfl, by decide, by decide, by decide, by decide⟩

/-- Counterexample for C7 as stated: the pre-complement CRC register for
the test string is 0x6F91, not 0x906E; 0x906E is the value after the final
XOR 0xFFFF, and it is this complemented value the frame carries, low byte
0x6E before high byte 0x90 (a further complement would give bytes 0x91,
0x6F and break the stated transmitted bytes). -/
theorem ax25_fcs_cex :
    crc16 (strBytes "123456789") ≠ 0x906E
  ∧ crc16 (strBytes "123456789") = 0x6F91
  ∧ fcsOf (strBytes "123456789") = 0x906E := by
  refine ⟨by decide, by decide, by decide⟩

/-! ## Bit-stuffing invariant -/

/-- A run of n consecutive 1 bits starting at position i of a bit list. -/
def onesAt (l : List Bool) (i n : Nat) : Prop :=
  ∀ j < n, l[i + j]? = some true

/-- Invariant of a stuffed stream read with k one bits immediately before
it: every maximal run of ones, counted together with the k preceding ones,
has length at most 5. -/
def stuffOk : Nat → List Bool → Prop
  | _, [] => True
  | k, true :: t => k + 1 ≤ 5 ∧ stuffOk (k + 1) t
  | _, false :: t => stuffOk 0 t

/-- The stuffing automaton establishes the invariant: a 0 is inserted after
every fifth consecutive 1, so no run ever reaches 6. -/
theorem stuffAux_ok (l : List Bool) : ∀ c, c ≤ 4 → stuffOk c (stuffAux c l) := by
  induction l with
  | nil => intro c hc; trivial
  | cons b t ih =>
    intro c hc
    cases b
    · show stuffOk c (false :: stuffAux 0 t)
      exact ih 0 (by omega)
    · show stuffOk c (stuffAux c (true :: t))
      unfold stuffAux
      by_cases h4 : c = 4
      · rw [if_pos h4]
        subst h4
        exact ⟨by omega, ih 0 (by omega)⟩
      · rw [if_neg h4]
        exact ⟨by omega, ih (c + 1) (by omega)⟩

/-- Every suffix of a stream satisfying the invariant satisfies it for some
run counter. -/
theorem stuffOk_drop (l : List Bool) : ∀ (k i : Nat), stuffOk k l → ∃ k2, stuffOk k2 (l.drop i) := by
  induction l with
  | nil => intro k i _; exact ⟨0, by cases i <;> trivial⟩
  | cons b t ih =>
    intro k i h
    cases i with
    | zero => exact ⟨k, h⟩
    | succ j =>
      rw [List.drop_succ_cons]
      cases b
      · exact ih 0 j h
      · exact ih (k + 1) j h.2

/-- Under the invariant with k preceding ones, a run of n ones at the head
of the stream satisfies k + n at most 5. -/
theorem stuffOk_ones_bound (l : List Bool) :
    ∀ (k n : Nat), stuffOk k l → onesAt l 0 n → 0 < n → k + n ≤ 5 := by
  induction l with
  | nil =>
    intro k n _ ho hn
    have := ho 0 hn
    simp at this
  | cons b t ih =>
    intro k n h ho hn
    cases b
    · have := ho 0 hn
      simp at this
    · obtain ⟨hk, ht⟩ := h
      have htail : onesAt t 0 (n - 1) := by
        intro j hj
        have := ho (1 + j) (by omega)
        rw [show 0 + (1 + j) = (0 + j) + 1 from by omega] at this
        rw [List.getElem?_cons_succ] at this
        exact this
      rcases Nat.eq_zero_or_pos (n - 1) with h1 | h1
      · omega
      · have := ih (k + 1) (n - 1) ht htail h1
        omega

/-- The stuffed stream never contains six consecutive 1 bits. -/
theorem stuff_no_six (l : List Bool) (i : Nat) : ¬ onesAt (stuff l) i 6 := by
  intro h
  obtain ⟨k2, hk2⟩ := stuffOk_drop (stuff l) 0 i (stuffAux_ok l 0 (by omega))
  have hdrop : onesAt ((stuff l).drop i) 0 6 := by
    intro j hj
    rw [List.getElem?_drop]
    have := h j hj
    rw [show i + (0 + j) = i + j from by omega]
    exact this
  have := stuffOk_ones_bound ((stuff l).drop i) k2 6 hk2 hdrop (by omega)
  omega

/-- Index computation over the framed stream flag ++ data ++ flag. -/
theorem framed_getElem (S : List Bool) (n : Nat) :
    (flagBits ++ (S ++ flagBits))[n]? =
      if n < 8 then flagBits[n]?
      else if n - 8 < S.length then S[n - 8]?
      else flagBits[n - 8 - S.length]? := by
  have hlen8 : flagBits.length = 8 := rfl
  rw [List.getElem?_append, List.getElem?_append, hlen8]

/-- The six 1 bits inside the flag byte, LSB first positions 1 through 6. -/
theorem flagBits_ones (m : Nat) (h1m : 1 ≤ m) (h2m : m ≤ 6) : flagBits[m]? = some true := by
  interval_cases m <;> rfl

/-- Past its 8 bits the flag yields no bit. -/
theorem flagBits_none (m : Nat) (hm : 8 ≤ m) : flagBits[m]? = none := by
  apply List.getElem?_eq_none
  show flagBits.length ≤ m
  rw [show flagBits.length = 8 from rfl]
  exact hm

/-- In a framed stream whose data part has no run of six ones, a run of six
consecutive 1 bits starts exactly at position 1 (inside the opening flag)
or at position 9 + data length (inside the closing flag). -/
theorem framed_six_ones (S : List Bool) (hS : ∀ i, ¬ onesAt S i 6) (i : Nat) :
    onesAt (flagBits ++ (S ++ flagBits)) i 6 ↔ (i = 1 ∨ i = 9 + S.length) := by
  constructor
  · intro h
    by_contra hne
    push_neg at hne
    obtain ⟨hne1, hne2⟩ := hne
    rcases Nat.lt_or_ge i 8 with hi | hi
    · rcases Nat.eq_zero_or_pos i with h0 | hpos
      · have h1 := h 0 (by omega)
        rw [framed_getElem, if_pos (by omega), show i + 0 = 0 from by omega] at h1
        exact absurd h1 (by rw [show flagBits[0]? = some false from rfl]; simp)
      · have h1 := h (7 - i) (by omega)
        rw [framed_getElem, show i + (7 - i) = 7 from by omega, if_pos (by omega)] at h1
        exact absurd h1 (by rw [show flagBits[7]? = some false from rfl]; simp)
    · rcases Nat.lt_or_ge (i + 5) (8 + S.length) with hwin | hwin
      · refine hS (i - 8) ?_
        intro j hj
        have h1 := h j hj
        rw [framed_getElem, if_neg (by omega), if_pos (by omega),
          show i + j - 8 = i - 8 + j from by omega] at h1
        exact h1
      · rcases Nat.lt_or_ge (8 + S.length) i with hpast | hupto
        · rcases Nat.lt_or_ge i (16 + S.length) with hin2 | hout2
          · have h1 := h (15 + S.length - i) (by omega)
            rw [framed_getElem, show i + (15 + S.length - i) = 15 + S.length from by omega,
              if_neg (by omega), if_neg (by omega),
              show 15 + S.length - 8 - S.length = 7 from by omega] at h1
            exact absurd h1 (by rw [show flagBits[7]? = some false from rfl]; simp)
          · have h1 := h 0 (by omega)
            rw [framed_getElem, if_neg (by omega), if_neg (by omega)] at h1
            rw [flagBits_none (i + 0 - 8 - S.length) (by omega)] at h1
            exact absurd h1 (by simp)
        · have h1 := h (8 + S.length - i) (by omega)
          rw [framed_getElem, show i + (8 + S.length - i) = 8 + S.length from by omega,
            if_neg (by omega), if_neg (by omega),
            show 8 + S.length - 8 - S.length = 0 from by omega] at h1
          exact absurd h1 (by rw [show flagBits[0]? = some false from rfl]; simp)
  · intro hi
    rcases hi with h1 | h1
    · subst h1
      intro j hj
      rw [framed_getElem, if_pos (by omega)]
      exact flagBits_ones (1 + j) (by omega) (by omega)
    · subst h1
      intro j hj
      rw [framed_getElem, if_neg (by omega), if_neg (by omega),
        show 9 + S.length + j - 8 - S.length = 1 + j from by omega]
      exact flagBits_ones (1 + j) (by omega) (by omega)

/-- C8: in the serialized frame bit stream a 0 is inserted after every run
of five consecutive 1 bits of the data (the stuffing automaton), so a run
of six consecutive 1 bits occurs exactly at the two positions inside the
opening and closing flag bytes - position 1 and position 9 plus the stuffed
data length - and in particular the stuffed data between the flags contains
no run of six consecutive 1 bits. -/
theorem ax25frame_six_ones (src dest path info : String) (i : Nat) :
    onesAt (ax25frame src dest path info) i 6
      ↔ (i = 1 ∨ i = 9 + (stuff (frameBits src dest path info)).length) := by
  unfold ax25frame
  exact framed_six_ones (stuff (frameBits src dest path info))
    (fun r => stuff_no_six (frameBits src dest path info) r) i

end Franc
